import Mathlib

/-!
Verification of the two core mechanisms of buck2-change-detector:

* the reverse-reachability label propagation engine
  (`requires_sudo_recursively` in `btd/src/sudo.rs`), and
* the string interning utility (`td_util/src/string.rs`).

The embedding keeps the source structure: the propagation engine builds a
reverse-adjacency map, seeds a work list with directly marked targets, and
drains the work list with an "insert, then push only if new" discipline.
The interner is an append-only table looked up through the equivalence
predicates of `string.rs`.
-/

namespace Btd

/-- Modelled from the spec: `TargetLabel` (from `buck/types.rs`, not part of
the staged sources) identifies a target; its text is package + separator +
name, so we model it as the (package, name) pair. -/
abbrev TargetLabel := String × String

/-- Modelled from the spec: `TargetLabelKey` (from `buck/targets.rs`, not part
of the staged sources) is the owned identity key (package, name) of a target,
usable independently of the target collection's lifetime. -/
abbrev TargetLabelKey := String × String

/-- Modelled from the spec: a `BuckTarget` (from `buck/targets.rs`, not part
of the staged sources) carries its identity (package and name), its forward
dependency labels and its free-form labels. -/
structure BuckTarget where
  package : String
  name : String
  deps : List TargetLabel
  labels : List String
  deriving DecidableEq, Repr

/-- `BuckTarget::label()`: the target's own label. -/
def BuckTarget.label (t : BuckTarget) : TargetLabel := (t.package, t.name)

/-- `BuckTarget::label_key()`: the target's identity key. -/
def BuckTarget.label_key (t : BuckTarget) : TargetLabelKey := (t.package, t.name)

/-- Modelled from the spec: `Targets` (from `buck/targets.rs`, not part of the
staged sources) is an enumerable collection of targets; `targets()` iterates
its target entries, which is what `requires_sudo_recursively` consumes. -/
abbrev Targets := List BuckTarget

/-- The marker label hard-coded in `requires_sudo_recursively`. -/
def marker : String := "uses_sudo"

/-- One `rdeps.entry(d).or_insert(Vec::new()).push(target)` step: the
reverse-adjacency map is embedded as a function from labels to the pushed
dependents, in push order. -/
def rdepsInsert (m : TargetLabel → List BuckTarget) (d : TargetLabel)
    (t : BuckTarget) : TargetLabel → List BuckTarget :=
  fun k => if k = d then m d ++ [t] else m k

/-- The inner `for d in target.deps.iter()` loop of the index pass. -/
def addTargetRdeps (m : TargetLabel → List BuckTarget) (t : BuckTarget) :
    TargetLabel → List BuckTarget :=
  t.deps.foldl (fun m d => rdepsInsert m d t) m

/-- The index pass of `requires_sudo_recursively`: for each target and each of
its forward dependencies `d`, record the target as a dependent of `d`. -/
def buildRdeps (ts : Targets) : TargetLabel → List BuckTarget :=
  ts.foldl addTargetRdeps (fun _ => [])

/-- The seed pass of `requires_sudo_recursively`: every target carrying the
marker label is pushed onto the work list and its key inserted into the
result set.  The work list is a stack: push is cons, pop takes the head. -/
def seedPass (ts : Targets) : List BuckTarget × List TargetLabelKey :=
  ts.foldl
    (fun acc t =>
      if marker ∈ t.labels then
        (t :: acc.1,
         if t.label_key ∈ acc.2 then acc.2 else t.label_key :: acc.2)
      else acc)
    ([], [])

/-- The inner `for parent in parents` loop of the drain phase: insert each
parent's key into the result set and push the parent onto the work list only
when the insertion was new (`if sudos.insert(parent.label_key())`). -/
def processParents (parents : List BuckTarget)
    (acc : List TargetLabelKey × List BuckTarget) :
    List TargetLabelKey × List BuckTarget :=
  parents.foldl
    (fun acc p =>
      if p.label_key ∈ acc.1 then acc else (p.label_key :: acc.1, p :: acc.2))
    acc

/-- Number of targets of the collection whose key is not yet in the result
set: the termination measure of the drain loop. -/
def miss (ts : Targets) (sudos : List TargetLabelKey) : Nat :=
  (ts.filter (fun t => decide (t.label_key ∉ sudos))).length

theorem processParents_fst_mono (ps : List BuckTarget)
    (acc : List TargetLabelKey × List BuckTarget) :
    ∀ k ∈ acc.1, k ∈ (processParents ps acc).1 := by
  induction ps generalizing acc with
  | nil => simp [processParents]
  | cons p ps ih =>
    intro k hk
    simp only [processParents, List.foldl_cons] at *
    by_cases hmem : p.label_key ∈ acc.1
    · simpa [hmem] using ih acc k hk
    · simpa [hmem] using ih (p.label_key :: acc.1, p :: acc.2) k (by simp [hk])

theorem processParents_snd_mono (ps : List BuckTarget)
    (acc : List TargetLabelKey × List BuckTarget) :
    ∀ t ∈ acc.2, t ∈ (processParents ps acc).2 := by
  induction ps generalizing acc with
  | nil => simp [processParents]
  | cons p ps ih =>
    intro t ht
    simp only [processParents, List.foldl_cons] at *
    by_cases hmem : p.label_key ∈ acc.1
    · simpa [hmem] using ih acc t ht
    · simpa [hmem] using ih (p.label_key :: acc.1, p :: acc.2) t (by simp [ht])

theorem miss_mono_of_subset (ts : Targets) (s s' : List TargetLabelKey)
    (h : ∀ k ∈ s, k ∈ s') : miss ts s' ≤ miss ts s := by
  unfold miss
  apply List.Sublist.length_le
  apply List.monotone_filter_right
  intro t ht
  simp only [decide_eq_true_eq] at *
  exact fun hmem => ht (h _ hmem)

theorem miss_lt_of_insert (ts : Targets) (s : List TargetLabelKey)
    (p : BuckTarget) (hp : p ∈ ts) (hnew : p.label_key ∉ s) :
    miss ts (p.label_key :: s) < miss ts s := by
  unfold miss
  have hsub : (ts.filter (fun t => decide (t.label_key ∉ p.label_key :: s))).Sublist
      (ts.filter (fun t => decide (t.label_key ∉ s))) := by
    apply List.monotone_filter_right
    intro t ht
    simp only [decide_eq_true_eq, List.mem_cons] at *
    exact fun hmem => ht (Or.inr hmem)
  by_contra hle
  push_neg at hle
  have heq := hsub.eq_of_length (Nat.le_antisymm hsub.length_le hle)
  have hpmem : p ∈ ts.filter (fun t => decide (t.label_key ∉ s)) := by
    simp [List.mem_filter, hp, hnew]
  rw [← heq] at hpmem
  simp [List.mem_filter] at hpmem

theorem rdepsInsert_mem (m : TargetLabel → List BuckTarget) (d : TargetLabel)
    (t u : BuckTarget) (k : TargetLabel) :
    u ∈ rdepsInsert m d t k ↔ u ∈ m k ∨ (k = d ∧ u = t) := by
  unfold rdepsInsert
  by_cases hk : k = d
  · subst hk
    simp
  · simp [hk]

theorem foldl_rdeps_mem (ds : List TargetLabel) (t : BuckTarget)
    (m : TargetLabel → List BuckTarget) (k : TargetLabel) (u : BuckTarget) :
    u ∈ (ds.foldl (fun m d => rdepsInsert m d t) m) k ↔
      u ∈ m k ∨ (k ∈ ds ∧ u = t) := by
  induction ds generalizing m with
  | nil => simp
  | cons d ds ih =>
    simp only [List.foldl_cons]
    rw [ih]
    rw [rdepsInsert_mem]
    simp only [List.mem_cons]
    tauto

theorem addTargetRdeps_mem (m : TargetLabel → List BuckTarget) (t : BuckTarget)
    (k : TargetLabel) (u : BuckTarget) :
    u ∈ addTargetRdeps m t k ↔ u ∈ m k ∨ (k ∈ t.deps ∧ u = t) :=
  foldl_rdeps_mem t.deps t m k u

theorem buildRdeps_mem (ts : Targets) (k : TargetLabel) (u : BuckTarget) :
    u ∈ buildRdeps ts k ↔ u ∈ ts ∧ k ∈ u.deps := by
  unfold buildRdeps
  suffices h : ∀ (m : TargetLabel → List BuckTarget),
      u ∈ (ts.foldl addTargetRdeps m) k ↔ u ∈ m k ∨ (u ∈ ts ∧ k ∈ u.deps) by
    simpa using h (fun _ => [])
  induction ts with
  | nil => simp
  | cons t ts ih =>
    intro m
    simp only [List.foldl_cons]
    rw [ih]
    rw [addTargetRdeps_mem]
    simp only [List.mem_cons]
    constructor
    · rintro ((hm | ⟨hk, rfl⟩) | ⟨hu, hk⟩) <;> tauto
    · rintro (hm | ⟨hu | hu, hk⟩)
      · tauto
      · subst hu
        tauto
      · tauto

theorem processParents_miss_le (ts : Targets) (ps : List BuckTarget)
    (acc : List TargetLabelKey × List BuckTarget) :
    miss ts (processParents ps acc).1 ≤ miss ts acc.1 :=
  miss_mono_of_subset ts _ _ (processParents_fst_mono ps acc)

theorem processParents_sum_le (ts : Targets) (ps : List BuckTarget)
    (hps : ∀ p ∈ ps, p ∈ ts)
    (acc : List TargetLabelKey × List BuckTarget) :
    miss ts (processParents ps acc).1 + (processParents ps acc).2.length ≤
      miss ts acc.1 + acc.2.length := by
  induction ps generalizing acc with
  | nil => simp [processParents]
  | cons p ps ih =>
    simp only [processParents, List.foldl_cons] at *
    by_cases hmem : p.label_key ∈ acc.1
    · simpa [hmem] using ih (fun q hq => hps q (List.mem_cons_of_mem p hq)) acc
    · simp only [hmem, if_neg, ite_false]
      refine le_trans (ih (fun q hq => hps q (List.mem_cons_of_mem p hq))
        (p.label_key :: acc.1, p :: acc.2)) ?_
      have hlt := miss_lt_of_insert ts acc.1 p (hps p (List.mem_cons_self p ps)) hmem
      simp only [List.length_cons]
      omega

/-- The drain phase of `requires_sudo_recursively`: pop a target from the work
list, look up its dependents, insert each dependent's key and push the
dependent when the insertion was new.  Terminates because each push is paired
with a key newly inserted into the result set. -/
def loop (ts : Targets) (todo : List BuckTarget)
    (sudos : List TargetLabelKey) : List TargetLabelKey :=
  match todo with
  | [] => sudos
  | lbl :: rest =>
    let acc := processParents (buildRdeps ts lbl.label) (sudos, rest)
    loop ts acc.2 acc.1
termination_by 2 * miss ts sudos + todo.length
decreasing_by
  have hin : ∀ p ∈ buildRdeps ts lbl.label, p ∈ ts := by
    intro p hp
    exact ((buildRdeps_mem ts lbl.label p).mp hp).1
  have h1 := processParents_sum_le ts (buildRdeps ts lbl.label) hin (sudos, rest)
  have h2 := processParents_miss_le ts (buildRdeps ts lbl.label) (sudos, rest)
  simp only [List.length_cons]
  dsimp only at h1 h2 ⊢
  omega

/-- `requires_sudo_recursively` from `btd/src/sudo.rs`: seed with directly
marked targets, then drain the work list over the reverse-adjacency index. -/
def requires_sudo_recursively (targets : Targets) : List TargetLabelKey :=
  let seeded := seedPass targets
  loop targets seeded.1 seeded.2

/-- The specification's closure relation: a target of the collection either
carries the marker label directly, or forward-depends (via a dependency edge
whose label matches another collection target) on a target that does. -/
inductive DependsOnMarked (ts : Targets) : BuckTarget → Prop
  | base (t : BuckTarget) (ht : t ∈ ts) (hm : marker ∈ t.labels) :
      DependsOnMarked ts t
  | step (t u : BuckTarget) (ht : t ∈ ts) (hd : u.label ∈ t.deps)
      (hu : DependsOnMarked ts u) : DependsOnMarked ts t

theorem DependsOnMarked.mem {ts : Targets} {t : BuckTarget}
    (h : DependsOnMarked ts t) : t ∈ ts := by
  induction h with
  | base t ht _ => exact ht
  | step t u ht _ _ _ => exact ht

theorem label_eq_iff (t u : BuckTarget) :
    t.label = u.label ↔ t.label_key = u.label_key := Iff.rfl

theorem seedPass_todo_mem (ts : Targets) (t : BuckTarget) :
    t ∈ (seedPass ts).1 ↔ t ∈ ts ∧ marker ∈ t.labels := by
  unfold seedPass
  suffices h : ∀ (acc : List BuckTarget × List TargetLabelKey),
      t ∈ (ts.foldl
        (fun acc t =>
          if marker ∈ t.labels then
            (t :: acc.1,
             if t.label_key ∈ acc.2 then acc.2 else t.label_key :: acc.2)
          else acc) acc).1 ↔
        t ∈ acc.1 ∨ (t ∈ ts ∧ marker ∈ t.labels) by
    simpa using h ([], [])
  induction ts with
  | nil => simp
  | cons t0 ts ih =>
    intro acc
    simp only [List.foldl_cons]
    by_cases hm : marker ∈ t0.labels
    · rw [if_pos hm, ih]
      simp only [List.mem_cons]
      constructor
      · rintro ((rfl | h) | h) <;> tauto
      · rintro (h | ⟨rfl | h, hmt⟩) <;> tauto
    · rw [if_neg hm, ih]
      simp only [List.mem_cons]
      constructor
      · rintro (h | h) <;> tauto
      · rintro (h | ⟨rfl | h, hmt⟩) <;> tauto

theorem seedPass_sudos_mem (ts : Targets) (k : TargetLabelKey) :
    k ∈ (seedPass ts).2 ↔
      ∃ t, t ∈ ts ∧ marker ∈ t.labels ∧ t.label_key = k := by
  unfold seedPass
  suffices h : ∀ (acc : List BuckTarget × List TargetLabelKey),
      k ∈ (ts.foldl
        (fun acc t =>
          if marker ∈ t.labels then
            (t :: acc.1,
             if t.label_key ∈ acc.2 then acc.2 else t.label_key :: acc.2)
          else acc) acc).2 ↔
        k ∈ acc.2 ∨ (∃ t, t ∈ ts ∧ marker ∈ t.labels ∧ t.label_key = k) by
    simpa using h ([], [])
  induction ts with
  | nil => simp
  | cons t0 ts ih =>
    intro acc
    simp only [List.foldl_cons]
    by_cases hm : marker ∈ t0.labels
    · rw [if_pos hm, ih]
      simp only [List.mem_cons]
      by_cases hk : t0.label_key ∈ acc.2
      · rw [if_pos hk]
        constructor
        · rintro (h | ⟨t, ht, hmt, rfl⟩)
          · exact Or.inl h
          · exact Or.inr ⟨t, Or.inr ht, hmt, rfl⟩
        · rintro (h | ⟨t, rfl | ht, hmt, rfl⟩)
          · exact Or.inl h
          · exact Or.inl hk
          · exact Or.inr ⟨t, ht, hmt, rfl⟩
      · rw [if_neg hk]
        constructor
        · rintro (h | ⟨t, ht, hmt, rfl⟩)
          · rcases List.mem_cons.mp h with rfl | h
            · exact Or.inr ⟨t0, Or.inl rfl, hm, rfl⟩
            · exact Or.inl h
          · exact Or.inr ⟨t, Or.inr ht, hmt, rfl⟩
        · rintro (h | ⟨t, rfl | ht, hmt, rfl⟩)
          · exact Or.inl (List.mem_cons_of_mem _ h)
          · exact Or.inl (List.mem_cons_self _ _)
          · exact Or.inr ⟨t, ht, hmt, rfl⟩
    · rw [if_neg hm, ih]
      simp only [List.mem_cons]
      constructor
      · rintro (h | ⟨t, ht, hmt, rfl⟩)
        · exact Or.inl h
        · exact Or.inr ⟨t, Or.inr ht, hmt, rfl⟩
      · rintro (h | ⟨t, rfl | ht, hmt, rfl⟩)
        · exact Or.inl h
        · exact absurd hmt hm
        · exact Or.inr ⟨t, ht, hmt, rfl⟩

theorem processParents_parents_key (ps : List BuckTarget)
    (acc : List TargetLabelKey × List BuckTarget) :
    ∀ p ∈ ps, p.label_key ∈ (processParents ps acc).1 := by
  induction ps generalizing acc with
  | nil => simp
  | cons q ps ih =>
    intro p hp
    simp only [processParents, List.foldl_cons] at *
    rcases List.mem_cons.mp hp with rfl | hp
    · by_cases hmem : p.label_key ∈ acc.1
      · simpa [hmem] using processParents_fst_mono ps acc p.label_key hmem
      · simpa [hmem] using
          processParents_fst_mono ps (p.label_key :: acc.1, p :: acc.2)
            p.label_key (List.mem_cons_self _ _)
    · by_cases hmem : q.label_key ∈ acc.1
      · simpa [hmem] using ih acc p hp
      · simpa [hmem] using ih (q.label_key :: acc.1, q :: acc.2) p hp

theorem processParents_new_pushed (ps : List BuckTarget)
    (acc : List TargetLabelKey × List BuckTarget) :
    ∀ k ∈ (processParents ps acc).1, k ∈ acc.1 ∨
      ∃ p, p ∈ ps ∧ p ∈ (processParents ps acc).2 ∧ p.label_key = k := by
  induction ps generalizing acc with
  | nil => simp [processParents]
  | cons q ps ih =>
    intro k hk
    simp only [processParents, List.foldl_cons] at *
    by_cases hmem : q.label_key ∈ acc.1
    · rw [if_pos hmem] at hk ⊢
      rcases ih acc k hk with h | ⟨p, hp, hp2, rfl⟩
      · exact Or.inl h
      · exact Or.inr ⟨p, List.mem_cons_of_mem q hp, hp2, rfl⟩
    · rw [if_neg hmem] at hk ⊢
      rcases ih (q.label_key :: acc.1, q :: acc.2) k hk with h | ⟨p, hp, hp2, rfl⟩
      · rcases List.mem_cons.mp h with rfl | h
        · refine Or.inr ⟨q, List.mem_cons_self _ _, ?_, rfl⟩
          exact processParents_snd_mono ps (q.label_key :: acc.1, q :: acc.2) q
            (List.mem_cons_self _ _)
        · exact Or.inl h
      · exact Or.inr ⟨p, List.mem_cons_of_mem q hp, hp2, rfl⟩

theorem processParents_preserve (Q : BuckTarget → Prop) (ps : List BuckTarget)
    (acc : List TargetLabelKey × List BuckTarget) :
    (∀ p ∈ ps, Q p) → (∀ t ∈ acc.2, Q t) →
    (∀ k ∈ acc.1, ∃ t, Q t ∧ t.label_key = k) →
    (∀ t ∈ (processParents ps acc).2, Q t) ∧
      (∀ k ∈ (processParents ps acc).1, ∃ t, Q t ∧ t.label_key = k) := by
  induction ps generalizing acc with
  | nil =>
    intro _ htd hs
    exact ⟨htd, hs⟩
  | cons q ps ih =>
    intro hps htd hs
    simp only [processParents, List.foldl_cons] at *
    by_cases hmem : q.label_key ∈ acc.1
    · rw [if_pos hmem]
      exact ih acc (fun p hp => hps p (List.mem_cons_of_mem q hp)) htd hs
    · rw [if_neg hmem]
      refine ih (q.label_key :: acc.1, q :: acc.2)
        (fun p hp => hps p (List.mem_cons_of_mem q hp)) ?_ ?_
      · intro t ht
        rcases List.mem_cons.mp ht with rfl | ht
        · exact hps t (List.mem_cons_self _ _)
        · exact htd t ht
      · intro k hk
        rcases List.mem_cons.mp hk with rfl | hk
        · exact ⟨q, hps q (List.mem_cons_self _ _), rfl⟩
        · exact hs k hk

theorem loop_mono (ts : Targets) (todo : List BuckTarget)
    (sudos : List TargetLabelKey) :
    ∀ k ∈ sudos, k ∈ loop ts todo sudos := by
  induction todo, sudos using loop.induct ts with
  | case1 sudos => simp [loop]
  | case2 sudos lbl rest acc ih =>
    intro k hk
    rw [loop]
    exact ih k (processParents_fst_mono _ _ k hk)

theorem loop_sound (ts : Targets) (todo : List BuckTarget)
    (sudos : List TargetLabelKey) :
    (∀ t ∈ todo, DependsOnMarked ts t) →
    (∀ k ∈ sudos, ∃ t, DependsOnMarked ts t ∧ t.label_key = k) →
    ∀ k ∈ loop ts todo sudos, ∃ t, DependsOnMarked ts t ∧ t.label_key = k := by
  induction todo, sudos using loop.induct ts with
  | case1 sudos =>
    intro _ hs
    simpa [loop] using hs
  | case2 sudos lbl rest acc ih =>
    intro htd hs
    rw [loop]
    have hlbl : DependsOnMarked ts lbl := htd lbl (List.mem_cons_self _ _)
    have hps : ∀ p ∈ buildRdeps ts lbl.label, DependsOnMarked ts p := by
      intro p hp
      rcases (buildRdeps_mem ts lbl.label p).mp hp with ⟨hpts, hdep⟩
      exact DependsOnMarked.step p lbl hpts hdep hlbl
    have hpre := processParents_preserve (DependsOnMarked ts)
      (buildRdeps ts lbl.label) (sudos, rest) hps
      (fun t ht => htd t (List.mem_cons_of_mem lbl ht)) hs
    exact ih hpre.1 hpre.2

/-- The drain loop's completeness invariant: every target of the collection
whose key is already in the result set either still waits on the work list
(some work-list entry carries its label) or already has all its dependents'
keys in the result set. -/
def LoopInv (ts : Targets) (todo : List BuckTarget)
    (sudos : List TargetLabelKey) : Prop :=
  ∀ u : BuckTarget, u ∈ ts → u.label_key ∈ sudos →
    (∃ v ∈ todo, v.label = u.label) ∨
    (∀ p ∈ ts, u.label ∈ p.deps → p.label_key ∈ sudos)

theorem loop_closed (ts : Targets) (todo : List BuckTarget)
    (sudos : List TargetLabelKey) :
    LoopInv ts todo sudos →
    ∀ u ∈ ts, u.label_key ∈ loop ts todo sudos →
    ∀ p ∈ ts, u.label ∈ p.deps → p.label_key ∈ loop ts todo sudos := by
  induction todo, sudos using loop.induct ts with
  | case1 sudos =>
    intro hinv u hu hk p hp hdep
    rw [loop] at hk ⊢
    rcases hinv u hu hk with ⟨v, hv, _⟩ | hclosed
    · exact absurd hv (List.not_mem_nil v)
    · exact hclosed p hp hdep
  | case2 sudos lbl rest acc ih =>
    intro hinv
    rw [loop]
    apply ih
    intro u hu hk
    rcases processParents_new_pushed _ _ u.label_key hk with hold | ⟨p, _, hptodo, hpk⟩
    · rcases hinv u hu hold with ⟨v, hv, hvl⟩ | hclosed
      · rcases List.mem_cons.mp hv with rfl | hv
        · refine Or.inr ?_
          intro p hp hdep
          apply processParents_parents_key
          rw [buildRdeps_mem]
          rw [← hvl] at hdep
          exact ⟨hp, hdep⟩
        · exact Or.inl ⟨v, processParents_snd_mono _ _ v hv, hvl⟩
      · refine Or.inr ?_
        intro p hp hdep
        exact processParents_fst_mono _ _ p.label_key (hclosed p hp hdep)
    · exact Or.inl ⟨p, hptodo, (label_eq_iff p u).mpr hpk⟩

theorem seed_inv (ts : Targets) : LoopInv ts (seedPass ts).1 (seedPass ts).2 := by
  intro u _ hk
  rcases (seedPass_sudos_mem ts u.label_key).mp hk with ⟨t, ht, hmt, htk⟩
  exact Or.inl ⟨t, (seedPass_todo_mem ts t).mpr ⟨ht, hmt⟩, (label_eq_iff t u).mpr htk⟩

theorem requires_sudo_complete (ts : Targets) (t : BuckTarget)
    (h : DependsOnMarked ts t) :
    t.label_key ∈ requires_sudo_recursively ts := by
  induction h with
  | base t ht hm =>
    exact loop_mono ts (seedPass ts).1 (seedPass ts).2 t.label_key
      ((seedPass_sudos_mem ts t.label_key).mpr ⟨t, ht, hm, rfl⟩)
  | step t u ht hd hu ih =>
    exact loop_closed ts (seedPass ts).1 (seedPass ts).2 (seed_inv ts)
      u hu.mem ih t ht hd

theorem mem_requires_sudo (ts : Targets) (k : TargetLabelKey) :
    k ∈ requires_sudo_recursively ts ↔
      ∃ t, DependsOnMarked ts t ∧ t.label_key = k := by
  constructor
  · intro hk
    refine loop_sound ts (seedPass ts).1 (seedPass ts).2 ?_ ?_ k hk
    · intro t ht
      rcases (seedPass_todo_mem ts t).mp ht with ⟨hts, hm⟩
      exact DependsOnMarked.base t hts hm
    · intro k hk
      rcases (seedPass_sudos_mem ts k).mp hk with ⟨t, ht, hm, htk⟩
      exact ⟨t, DependsOnMarked.base t ht hm, htk⟩
  · rintro ⟨t, ht, rfl⟩
    exact requires_sudo_complete ts t ht

/-- Pop counter for the drain loop: the same recursion as `loop`, counting one
for every element popped from the work list. -/
def loopPops (ts : Targets) (todo : List BuckTarget)
    (sudos : List TargetLabelKey) : Nat :=
  match todo with
  | [] => 0
  | lbl :: rest =>
    let acc := processParents (buildRdeps ts lbl.label) (sudos, rest)
    loopPops ts acc.2 acc.1 + 1
termination_by 2 * miss ts sudos + todo.length
decreasing_by
  have hin : ∀ p ∈ buildRdeps ts lbl.label, p ∈ ts := by
    intro p hp
    exact ((buildRdeps_mem ts lbl.label p).mp hp).1
  have h1 := processParents_sum_le ts (buildRdeps ts lbl.label) hin (sudos, rest)
  have h2 := processParents_miss_le ts (buildRdeps ts lbl.label) (sudos, rest)
  simp only [List.length_cons]
  dsimp only at h1 h2 ⊢
  omega

theorem loopPops_le (ts : Targets) (todo : List BuckTarget)
    (sudos : List TargetLabelKey) :
    loopPops ts todo sudos ≤ todo.length + miss ts sudos := by
  induction todo, sudos using loopPops.induct ts with
  | case1 sudos => simp [loopPops]
  | case2 sudos lbl rest acc ih =>
    rw [loopPops]
    have hin : ∀ p ∈ buildRdeps ts lbl.label, p ∈ ts := by
      intro p hp
      exact ((buildRdeps_mem ts lbl.label p).mp hp).1
    have h1 := processParents_sum_le ts (buildRdeps ts lbl.label) hin (sudos, rest)
    unfold acc at ih
    dsimp only at h1 ih ⊢
    simp only [List.length_cons]
    omega

theorem miss_le_length (ts : Targets) (sudos : List TargetLabelKey) :
    miss ts sudos ≤ ts.length := by
  unfold miss
  exact (List.filter_sublist ts).length_le

theorem seedPass_todo_length (ts : Targets) :
    (seedPass ts).1.length ≤ ts.length := by
  unfold seedPass
  suffices h : ∀ (acc : List BuckTarget × List TargetLabelKey),
      (ts.foldl
        (fun acc t =>
          if marker ∈ t.labels then
            (t :: acc.1,
             if t.label_key ∈ acc.2 then acc.2 else t.label_key :: acc.2)
          else acc) acc).1.length ≤ acc.1.length + ts.length by
    simpa using h ([], [])
  induction ts with
  | nil => simp
  | cons t0 ts ih =>
    intro acc
    simp only [List.foldl_cons, List.length_cons]
    by_cases hm : marker ∈ t0.labels
    · rw [if_pos hm]
      have := ih (t0 :: acc.1,
        if t0.label_key ∈ acc.2 then acc.2 else t0.label_key :: acc.2)
      simp only [List.length_cons] at this
      omega
    · rw [if_neg hm]
      have := ih acc
      omega

theorem processParents_nodup (ps : List BuckTarget)
    (acc : List TargetLabelKey × List BuckTarget) (h : acc.1.Nodup) :
    (processParents ps acc).1.Nodup := by
  induction ps generalizing acc with
  | nil => simpa [processParents] using h
  | cons q ps ih =>
    simp only [processParents, List.foldl_cons] at *
    by_cases hmem : q.label_key ∈ acc.1
    · rw [if_pos hmem]
      exact ih acc h
    · rw [if_neg hmem]
      exact ih (q.label_key :: acc.1, q :: acc.2) (List.Nodup.cons hmem h)

theorem loop_nodup (ts : Targets) (todo : List BuckTarget)
    (sudos : List TargetLabelKey) :
    sudos.Nodup → (loop ts todo sudos).Nodup := by
  induction todo, sudos using loop.induct ts with
  | case1 sudos =>
    intro h
    rw [loop]
    exact h
  | case2 sudos lbl rest acc ih =>
    intro h
    rw [loop]
    exact ih (processParents_nodup _ _ h)

theorem seedPass_sudos_nodup (ts : Targets) : (seedPass ts).2.Nodup := by
  unfold seedPass
  suffices h : ∀ (acc : List BuckTarget × List TargetLabelKey), acc.2.Nodup →
      (ts.foldl
        (fun acc t =>
          if marker ∈ t.labels then
            (t :: acc.1,
             if t.label_key ∈ acc.2 then acc.2 else t.label_key :: acc.2)
          else acc) acc).2.Nodup by
    simpa using h ([], []) List.nodup_nil
  induction ts with
  | nil => exact fun acc h => h
  | cons t0 ts ih =>
    intro acc h
    simp only [List.foldl_cons]
    by_cases hm : marker ∈ t0.labels
    · rw [if_pos hm]
      by_cases hk : t0.label_key ∈ acc.2
      · rw [if_pos hk]
        exact ih _ h
      · rw [if_neg hk]
        exact ih _ (List.Nodup.cons hk h)
    · rw [if_neg hm]
      exact ih acc h

theorem dependsOnMarked_of_perm (ts ts' : Targets) (h : ts.Perm ts')
    (t : BuckTarget) (hd : DependsOnMarked ts t) : DependsOnMarked ts' t := by
  induction hd with
  | base t ht hm => exact DependsOnMarked.base t (h.mem_iff.mp ht) hm
  | step t u ht hdep _ ih =>
    exact DependsOnMarked.step t u (h.mem_iff.mp ht) hdep ih

/-- `{ t with labels := marker :: t.labels }`: the same target additionally
carrying the marker label. -/
def markTarget (t : BuckTarget) : BuckTarget :=
  { t with labels := marker :: t.labels }

theorem markTarget_label (t : BuckTarget) : (markTarget t).label = t.label := rfl

theorem markTarget_deps (t : BuckTarget) : (markTarget t).deps = t.deps := rfl

theorem dependsOnMarked_mark_mono (l1 l2 : Targets) (t u : BuckTarget)
    (hd : DependsOnMarked (l1 ++ t :: l2) u) :
    ∃ u', DependsOnMarked (l1 ++ markTarget t :: l2) u' ∧ u'.label = u.label := by
  induction hd with
  | base u hu hm =>
    rcases List.mem_append.mp hu with hu | hu
    · exact ⟨u, DependsOnMarked.base u (List.mem_append_left _ hu) hm, rfl⟩
    · rcases List.mem_cons.mp hu with rfl | hu
      · refine ⟨markTarget u, DependsOnMarked.base (markTarget u) ?_ ?_, rfl⟩
        · exact List.mem_append_right _ (List.mem_cons_self _ _)
        · exact List.mem_cons_of_mem marker hm
      · exact ⟨u, DependsOnMarked.base u
          (List.mem_append_right _ (List.mem_cons_of_mem _ hu)) hm, rfl⟩
  | step p u hp hdep _ ih =>
    rcases ih with ⟨u', hu', hlbl⟩
    rcases List.mem_append.mp hp with hpmem | hpmem
    · refine ⟨p, DependsOnMarked.step p u' (List.mem_append_left _ hpmem) ?_ hu', rfl⟩
      rw [hlbl]
      exact hdep
    · rcases List.mem_cons.mp hpmem with rfl | hpmem
      · refine ⟨markTarget p, DependsOnMarked.step (markTarget p) u' ?_ ?_ hu', rfl⟩
        · exact List.mem_append_right _ (List.mem_cons_self _ _)
        · rw [markTarget_deps, hlbl]
          exact hdep
      · refine ⟨p, DependsOnMarked.step p u'
          (List.mem_append_right _ (List.mem_cons_of_mem _ hpmem)) ?_ hu', rfl⟩
        rw [hlbl]
        exact hdep

/-- C1: membership in the result of `requires_sudo_recursively` is exactly
being the identity key of a collection target that is directly marked with
`uses_sudo` or transitively depends (via forward dependency edges) on a
marked target; a target merely upstream of a mark never qualifies, since the
relation only propagates from a marked target to its dependents. -/
theorem requires_sudo_closure_exact (ts : Targets) (k : TargetLabelKey) :
    k ∈ requires_sudo_recursively ts ↔
      ∃ t, t ∈ ts ∧ DependsOnMarked ts t ∧ t.label_key = k := by
  rw [mem_requires_sudo]
  constructor
  · rintro ⟨t, ht, rfl⟩
    exact ⟨t, ht.mem, ht, rfl⟩
  · rintro ⟨t, _, ht, rfl⟩
    exact ⟨t, ht, rfl⟩

/-- C2: the work list of `requires_sudo_recursively` empties after at most
`ts.length + ts.length` pop steps on any finite collection (cycles included):
seed pushes are bounded by the target count and each drain-phase push is
paired with a newly inserted key, itself bounded by the target count.  Every
element of the result set is distinct. -/
theorem requires_sudo_terminates (ts : Targets) :
    loopPops ts (seedPass ts).1 (seedPass ts).2 ≤ ts.length + ts.length ∧
      (requires_sudo_recursively ts).Nodup := by
  constructor
  · have h1 := loopPops_le ts (seedPass ts).1 (seedPass ts).2
    have h2 := seedPass_todo_length ts
    have h3 := miss_le_length ts (seedPass ts).2
    omega
  · exact loop_nodup ts (seedPass ts).1 (seedPass ts).2 (seedPass_sudos_nodup ts)

/-- C5: `requires_sudo_recursively` is a pure function, so two runs on the
same collection agree, and the result set is insensitive to the enumeration
order of the collection (which fixes the seed push order and hence every pop
order of the stack): permuted collections yield the same membership. -/
theorem requires_sudo_deterministic (ts ts' : Targets) (k : TargetLabelKey)
    (h : ts.Perm ts') :
    requires_sudo_recursively ts = requires_sudo_recursively ts ∧
      (k ∈ requires_sudo_recursively ts ↔ k ∈ requires_sudo_recursively ts') := by
  refine ⟨rfl, ?_⟩
  rw [mem_requires_sudo, mem_requires_sudo]
  constructor
  · rintro ⟨t, ht, rfl⟩
    exact ⟨t, dependsOnMarked_of_perm ts ts' h t ht, rfl⟩
  · rintro ⟨t, ht, rfl⟩
    exact ⟨t, dependsOnMarked_of_perm ts' ts h.symm t ht, rfl⟩

/-- C6: marking one additional target with `uses_sudo` (all else unchanged)
only grows the result set of `requires_sudo_recursively`. -/
theorem requires_sudo_mark_monotone (l1 l2 : Targets) (t : BuckTarget)
    (k : TargetLabelKey)
    (h : k ∈ requires_sudo_recursively (l1 ++ t :: l2)) :
    k ∈ requires_sudo_recursively (l1 ++ markTarget t :: l2) := by
  rw [mem_requires_sudo] at h ⊢
  rcases h with ⟨u, hu, rfl⟩
  rcases dependsOnMarked_mark_mono l1 l2 t u hu with ⟨u', hu', hlbl⟩
  exact ⟨u', hu', (label_eq_iff u' u).mp hlbl⟩

/-- C10: every element of the result set of `requires_sudo_recursively` is
the identity key of a target present in the input collection; a dependency
edge pointing at an identity with no corresponding target contributes
nothing. -/
theorem requires_sudo_mem_of_result (ts : Targets) (k : TargetLabelKey)
    (h : k ∈ requires_sudo_recursively ts) :
    ∃ t, t ∈ ts ∧ t.label_key = k := by
  rcases (mem_requires_sudo ts k).mp h with ⟨t, ht, rfl⟩
  exact ⟨t, ht.mem, rfl⟩

/-- A concrete marked leaf target. -/
def tgtA : BuckTarget := ⟨"foo//", "a", [], ["uses_sudo"]⟩

/-- A concrete unmarked target depending on `tgtA`. -/
def tgtB : BuckTarget := ⟨"foo//", "b", [("foo//", "a")], []⟩

theorem requires_sudo_deterministic_witness :
    requires_sudo_recursively [tgtA, tgtB] = requires_sudo_recursively [tgtA, tgtB] ∧
      ((("foo//", "a") : TargetLabelKey) ∈ requires_sudo_recursively [tgtA, tgtB] ↔
        (("foo//", "a") : TargetLabelKey) ∈ requires_sudo_recursively [tgtB, tgtA]) :=
  requires_sudo_deterministic [tgtA, tgtB] [tgtB, tgtA] ("foo//", "a")
    (List.Perm.swap tgtB tgtA [])

theorem requires_sudo_mark_monotone_witness :
    (("foo//", "a") : TargetLabelKey) ∈
      requires_sudo_recursively ([] ++ markTarget tgtA :: []) :=
  requires_sudo_mark_monotone [] [] tgtA ("foo//", "a")
    ((mem_requires_sudo ([] ++ tgtA :: []) ("foo//", "a")).mpr
      ⟨tgtA, DependsOnMarked.base tgtA (List.mem_cons_self _ _) (by decide), rfl⟩)

theorem requires_sudo_mem_of_result_witness :
    ∃ t, t ∈ [tgtA] ∧ t.label_key = (("foo//", "a") : TargetLabelKey) :=
  requires_sudo_mem_of_result [tgtA] ("foo//", "a")
    ((mem_requires_sudo [tgtA] ("foo//", "a")).mpr
      ⟨tgtA, DependsOnMarked.base tgtA (List.mem_cons_self _ _) (by decide), rfl⟩)

/-- The bytes of a piece of Rust string content (`str` viewed through
`as_bytes`), the granularity at which `string.rs` compares and hashes. -/
abbrev Str := List Nat

/-- `Equivalent<StrData> for Key<&str>`: a single-string lookup key matches a
stored entry when the contents are byte-identical. -/
def keyEquivalentStr (k : Str) (x : Str) : Bool := k == x

/-- `Equivalent<StrData> for Key<(&str, &str, &str)>`: compare the total
length, split the stored bytes at `a.len()` and then at `b.len()`, and
compare the three segments, never building the concatenation. -/
def keyEquivalentTriple (a b c : Str) (x : Str) : Bool :=
  if a.length + b.length + c.length ≠ x.length then false
  else
    let xa := x.take a.length
    let xbc := x.drop a.length
    if a ≠ xa then false
    else
      let xb := xbc.take b.length
      let xc := xbc.drop b.length
      b == xb && c == xc

/-- Modelled from the spec: the process-wide interning table of the external
`static_interner` crate — an append-only list of canonical contents; a
symbol is its entry's position (creation order). -/
structure Interner where
  table : List Str
  deriving DecidableEq, Repr

/-- The table invariant: canonical contents are pairwise distinct (for any
content value, at most one entry exists). -/
def Interner.wf (st : Interner) : Prop := st.table.Nodup

/-- Modelled from the spec: the table lookup — the index of the first entry
matching the lookup key's equivalence predicate. -/
def findEntry (p : Str → Bool) : List Str → Option Nat
  | [] => none
  | x :: xs => if p x then some 0 else (findEntry p xs).map (· + 1)

/-- Modelled from the spec: `Interner::intern` — look the key up through its
equivalence predicate; on a hit return the existing symbol with the table
unchanged, otherwise append the owned content as a new canonical entry. -/
def internKey (st : Interner) (equiv : Str → Bool) (data : Str) :
    Interner × Nat :=
  match findEntry equiv st.table with
  | some i => (st, i)
  | none => (⟨st.table ++ [data]⟩, st.table.length)

/-- `InternString::new`: intern one string. -/
def InternString.new (st : Interner) (x : Str) : Interner × Nat :=
  internKey st (keyEquivalentStr x) x

/-- `InternString::new3`: intern the concatenation of three parts through the
triple key, concatenating only on the insert path. -/
def InternString.new3 (st : Interner) (x y z : Str) : Interner × Nat :=
  internKey st (keyEquivalentTriple x y z) (x ++ y ++ z)

/-- `Serialize for InternString`: a symbol serializes as its string content,
never as its table index. -/
def serializeInternString (st : Interner) (i : Nat) : Str := st.table.getD i []

/-- `Deserialize for InternString`: decoding text re-interns it
(`visit_str` calls `InternString::new`). -/
def deserializeInternString (st : Interner) (s : Str) : Interner × Nat :=
  InternString.new st s

/-- Modelled from the spec: a streaming byte hasher — each `Hasher::write`
appends the written bytes to the stream the hasher consumes, and the final
hash value is a function of that stream. -/
def hasherWrite (state : Str) (bytes : Str) : Str := state ++ bytes

/-- `Hash for Key<Box<str>>` / `Key<&str>` / `Key<String>`: one write of all
the content bytes. -/
def hashKeyStr (s : Str) (state : Str) : Str := hasherWrite state s

/-- `Hash for Key<(&str, &str, &str)>`: three successive writes, one per
part. -/
def hashKeyTriple (a b c : Str) (state : Str) : Str :=
  hasherWrite (hasherWrite (hasherWrite state a) b) c

/-- Byte-wise lexicographic order on string contents, as `Ord for str`
compares byte slices. -/
def lexLt : Str → Str → Bool
  | [], [] => false
  | [], _ :: _ => true
  | _ :: _, [] => false
  | x :: xs, y :: ys => if x < y then true else if x = y then lexLt xs ys else false

theorem keyEquivalentTriple_iff (a b c x : Str) :
    keyEquivalentTriple a b c x = true ↔ x = a ++ b ++ c := by
  unfold keyEquivalentTriple
  by_cases hlen : a.length + b.length + c.length ≠ x.length
  · rw [if_pos hlen]
    constructor
    · intro h
      exact absurd h Bool.false_ne_true
    · intro hx
      subst hx
      exfalso
      apply hlen
      simp
      omega
  · rw [if_neg hlen]
    push_neg at hlen
    by_cases ha : a ≠ x.take a.length
    · rw [if_pos ha]
      constructor
      · intro h
        exact absurd h Bool.false_ne_true
      · intro hx
        subst hx
        exfalso
        apply ha
        rw [List.append_assoc, List.take_left]
    · rw [if_neg ha]
      push_neg at ha
      simp only [Bool.and_eq_true, beq_iff_eq]
      constructor
      · rintro ⟨hb, hc⟩
        calc x = x.take a.length ++ x.drop a.length := (List.take_append_drop _ x).symm
          _ = a ++ ((x.drop a.length).take b.length ++ (x.drop a.length).drop b.length) := by
              rw [← ha, List.take_append_drop]
          _ = a ++ (b ++ c) := by rw [← hb, ← hc]
          _ = a ++ b ++ c := (List.append_assoc a b c).symm
      · intro hx
        subst hx
        rw [List.append_assoc, List.drop_left]
        exact ⟨(List.take_left b c).symm, (List.drop_left b c).symm⟩

theorem keyEquivalentTriple_eq (a b c x : Str) :
    keyEquivalentTriple a b c x = keyEquivalentStr (a ++ b ++ c) x := by
  have h1 := keyEquivalentTriple_iff a b c x
  unfold keyEquivalentStr
  cases htrip : keyEquivalentTriple a b c x
  · rw [htrip] at h1
    symm
    rw [beq_eq_false_iff_ne]
    intro hx
    exact Bool.false_ne_true (h1.mpr hx.symm)
  · rw [htrip] at h1
    symm
    rw [beq_iff_eq]
    exact (h1.mp rfl).symm

theorem findEntry_none_iff (p : Str → Bool) (l : List Str) :
    findEntry p l = none ↔ ∀ x ∈ l, p x = false := by
  induction l with
  | nil => simp [findEntry]
  | cons x xs ih =>
    unfold findEntry
    by_cases hx : p x
    · simp [hx]
    · simp only [Bool.not_eq_true] at hx
      simp [hx, ih, Option.map_eq_none']

theorem findEntry_some (p : Str → Bool) (l : List Str) (i : Nat)
    (h : findEntry p l = some i) :
    ∃ hi : i < l.length, p (l.get ⟨i, hi⟩) = true := by
  induction l generalizing i with
  | nil => simp [findEntry] at h
  | cons x xs ih =>
    unfold findEntry at h
    by_cases hx : p x
    · rw [if_pos hx] at h
      cases h
      exact ⟨Nat.succ_pos _, hx⟩
    · rw [if_neg hx] at h
      rcases Option.map_eq_some'.mp h with ⟨j, hj, rfl⟩
      rcases ih j hj with ⟨hjlt, hpj⟩
      exact ⟨Nat.succ_lt_succ hjlt, hpj⟩

theorem findEntry_get_self (l : List Str) (hnd : l.Nodup) (i : Nat)
    (hi : i < l.length) :
    findEntry (keyEquivalentStr (l.get ⟨i, hi⟩)) l = some i := by
  induction l generalizing i with
  | nil => exact absurd hi (by simp)
  | cons x xs ih =>
    rcases List.nodup_cons.mp hnd with ⟨hxmem, hxs⟩
    cases i with
    | zero =>
      unfold findEntry
      rw [if_pos]
      simp [keyEquivalentStr]
    | succ n =>
      have hn : n < xs.length := Nat.lt_of_succ_lt_succ hi
      have hget : (x :: xs).get ⟨n + 1, hi⟩ = xs.get ⟨n, hn⟩ := rfl
      unfold findEntry
      have hne : ¬ (keyEquivalentStr ((x :: xs).get ⟨n + 1, hi⟩) x = true) := by
        rw [hget, keyEquivalentStr, beq_iff_eq]
        intro heq
        rw [← heq] at hxmem
        exact hxmem (List.get_mem xs n hn)
      rw [if_neg hne]
      rw [hget, ih hxs n hn]
      rfl

theorem new3_eq_new (st : Interner) (a b c : Str) :
    InternString.new3 st a b c = InternString.new st (a ++ b ++ c) := by
  unfold InternString.new3 InternString.new
  have hfun : keyEquivalentTriple a b c = keyEquivalentStr (a ++ b ++ c) :=
    funext (keyEquivalentTriple_eq a b c)
  rw [hfun]

theorem new_getElem (st : Interner) (s : Str) :
    ((InternString.new st s).1.table)[(InternString.new st s).2]? = some s := by
  unfold InternString.new internKey
  cases h : findEntry (keyEquivalentStr s) st.table with
  | none => simp [List.getElem?_concat_length]
  | some i =>
    rcases findEntry_some _ _ i h with ⟨hi, hpi⟩
    have hcontent : st.table[i] = s := by
      rw [keyEquivalentStr, beq_iff_eq] at hpi
      rw [List.get_eq_getElem] at hpi
      exact hpi.symm
    simp only
    rw [List.getElem?_eq_getElem hi, hcontent]

theorem new_getElem_preserved (st : Interner) (s : Str) (i : Nat)
    (hi : i < st.table.length) :
    ((InternString.new st s).1.table)[i]? = (st.table)[i]? := by
  unfold InternString.new internKey
  cases hf : findEntry (keyEquivalentStr s) st.table with
  | some j => rfl
  | none =>
    simp only
    exact List.getElem?_append_left hi

theorem wf_empty : (Interner.mk []).wf := List.nodup_nil

theorem new_wf (st : Interner) (s : Str) (h : st.wf) :
    (InternString.new st s).1.wf := by
  unfold InternString.new internKey
  cases hf : findEntry (keyEquivalentStr s) st.table with
  | some i => exact h
  | none =>
    have hnmem : s ∉ st.table := by
      intro hmem
      have hx := (findEntry_none_iff _ _).mp hf s hmem
      simp [keyEquivalentStr] at hx
    unfold Interner.wf at h ⊢
    simp [List.nodup_append, h, hnmem]

/-- C3: interning three parts through the triple key yields the same state
and the same symbol as interning their concatenation in one piece, and the
split-and-compare equivalence predicate of the lookup path decides exactly
the same matches as comparison against the concatenated string. -/
theorem new3_eq_new_concat (st : Interner) (a b c : Str) :
    InternString.new3 st a b c = InternString.new st (a ++ b ++ c) ∧
      ∀ x : Str, keyEquivalentTriple a b c x = keyEquivalentStr (a ++ b ++ c) x :=
  ⟨new3_eq_new st a b c, keyEquivalentTriple_eq a b c⟩

/-- The bytes of "abcdefgh". -/
def strAbcdefgh : Str := [97, 98, 99, 100, 101, 102, 103, 104]

/-- The bytes of "ab". -/
def strAb : Str := [97, 98]

/-- The empty string. -/
def strEmpty : Str := []

/-- The bytes of "defg!". -/
def strDefgBang : Str := [100, 101, 102, 103, 33]

/-- C4: in a well-formed table, two symbols are equal exactly when their
canonical contents are byte-identical; in particular interning "abcdefgh"
and the triple ("ab", "", "defg!") — different contents — never yields equal
handles. -/
theorem intern_eq_iff_content_eq (st : Interner) (hwf : st.wf)
    (i j : Nat) (hi : i < st.table.length) (hj : j < st.table.length) :
    (i = j ↔ st.table.get ⟨i, hi⟩ = st.table.get ⟨j, hj⟩) ∧
      (InternString.new st strAbcdefgh).2 ≠
        (InternString.new3 (InternString.new st strAbcdefgh).1
          strAb strEmpty strDefgBang).2 := by
  constructor
  · constructor
    · intro h
      subst h
      rfl
    · intro h
      have h2 := (List.Nodup.get_inj_iff hwf).mp h
      simpa using h2
  · intro heq
    have h1 := new_getElem st strAbcdefgh
    rcases List.getElem?_eq_some.mp h1 with ⟨hi1, _⟩
    have h2 := new_getElem (InternString.new st strAbcdefgh).1
      (strAb ++ strEmpty ++ strDefgBang)
    have hpres := new_getElem_preserved (InternString.new st strAbcdefgh).1
      (strAb ++ strEmpty ++ strDefgBang) (InternString.new st strAbcdefgh).2 hi1
    rw [new3_eq_new] at heq
    rw [← heq] at h2
    rw [hpres, h1] at h2
    have hcontra : strAbcdefgh = strAb ++ strEmpty ++ strDefgBang :=
      Option.some.inj h2
    exact absurd hcontra (by decide)

/-- C7: a symbol serializes as exactly its canonical string content (never a
table index), and deserializing that text re-interns it, returning the very
same symbol with the table unchanged. -/
theorem serialize_roundtrip (st : Interner) (hwf : st.wf) (i : Nat)
    (hi : i < st.table.length) :
    serializeInternString st i = st.table.get ⟨i, hi⟩ ∧
      deserializeInternString st (serializeInternString st i) = (st, i) := by
  have hser : serializeInternString st i = st.table.get ⟨i, hi⟩ :=
    List.getD_eq_get st.table [] hi
  refine ⟨hser, ?_⟩
  unfold deserializeInternString InternString.new internKey
  rw [hser, findEntry_get_self st.table hwf i hi]

/-- C8: a fresh content always receives the next table position, so the
order on symbols is creation (insertion) order; it is not lexicographic
content order — interning "b" before "a" orders the handle of "b" first
although "a" is lexicographically smaller. -/
theorem intern_order_creation :
    (∀ (st : Interner) (s : Str), s ∉ st.table →
        (InternString.new st s).2 = st.table.length) ∧
      ∃ x y : Str, lexLt x y = true ∧
        (InternString.new ⟨[]⟩ y).2 <
          (InternString.new (InternString.new ⟨[]⟩ y).1 x).2 := by
  constructor
  · intro st s hmem
    unfold InternString.new internKey
    have hf : findEntry (keyEquivalentStr s) st.table = none := by
      rw [findEntry_none_iff]
      intro x hx
      rw [keyEquivalentStr, beq_eq_false_iff_ne]
      rintro rfl
      exact hmem hx
    rw [hf]
  · exact ⟨[97], [98], by decide, by decide⟩

/-- C9: hashing a triple key writes the bytes of the three parts in order,
producing exactly the byte stream of one write of the concatenation, so any
deterministic stream hasher assigns both key shapes the same hash. -/
theorem hash_triple_eq_hash_concat (a b c state : Str) :
    hashKeyTriple a b c state = hashKeyStr (a ++ b ++ c) state := by
  unfold hashKeyTriple hashKeyStr hasherWrite
  simp [List.append_assoc]

theorem intern_eq_iff_content_eq_witness :
    (InternString.new (Interner.mk [[0]]) strAbcdefgh).2 ≠
      (InternString.new3 (InternString.new (Interner.mk [[0]]) strAbcdefgh).1
        strAb strEmpty strDefgBang).2 :=
  (intern_eq_iff_content_eq ⟨[[0]]⟩ (by unfold Interner.wf; decide) 0 0
    (by decide) (by decide)).2

theorem serialize_roundtrip_witness :
    deserializeInternString (Interner.mk [[97]])
        (serializeInternString (Interner.mk [[97]]) 0) =
      (Interner.mk [[97]], 0) :=
  (serialize_roundtrip ⟨[[97]]⟩ (by unfold Interner.wf; decide) 0 (by decide)).2

theorem intern_order_creation_witness :
    (InternString.new (Interner.mk [[98]]) [97]).2 =
      (Interner.mk [[98]]).table.length :=
  intern_order_creation.1 ⟨[[98]]⟩ [97] (by decide)

end Btd
